import Mathlib

set_option maxHeartbeats 1000000

/-!
Verification development for the localsafe transaction hashing and
signature-aggregation core.

The hashing layer of the repository (src/app/utils/messageHashing.ts)
delegates byte-level EIP-712 and EIP-191 work to the external ethers
library.  Keccak-256 itself is modelled abstractly: a digest is a free
constructor applied to the structured preimage, so two digests are equal
exactly when their preimages are equal (the standard collision-free
idealization of a cryptographic hash).  Everything else (hex decoding,
strict UTF-8 decoding, JS string comparison and lower-casing, the EIP-712
encoder shape) is modelled executably.

The transaction ledger (SafeTxProvider in
src/app/safe/[address]/wc-sign/WalletConnectSignClient.tsx) is embedded
per safe address: each operation acts on the list stored for one address,
exactly as the source functions do.  JS Map and array reference semantics
are made explicit where a claim depends on them.
-/

namespace LocalSafe

/-! JS string primitives, modelled by hand so that every definition
reduces inside the kernel. -/

/-- Models the JS toLowerCase transform on one character, for the ASCII
range used by hex addresses. -/
def asciiLowerChar (c : Char) : Char :=
  if 65 ≤ c.toNat ∧ c.toNat ≤ 90 then Char.ofNat (c.toNat + 32) else c

/-- Models the JS String.prototype.toLowerCase call on address strings. -/
def jsToLowerCase (s : String) : String :=
  String.mk (s.data.map asciiLowerChar)

/-- Models the JS less-than comparison on strings: lexicographic over
code units. -/
def jsCharListLt : List Char → List Char → Bool
  | [], [] => false
  | [], _ :: _ => true
  | _ :: _, [] => false
  | a :: as, b :: bs =>
    if a.toNat < b.toNat then true
    else if b.toNat < a.toNat then false
    else jsCharListLt as bs

/-- Models the JS greater-or-equal comparison on strings. -/
def jsStringGE (a b : String) : Bool := ! jsCharListLt a.data b.data

/-- Models message.startsWith applied with the 0x marker. -/
def jsStartsWith0x (s : String) : Bool :=
  match s.data with
  | '0' :: 'x' :: _ => true
  | _ => false

/-! UTF-8 encoding and strict decoding, as performed by the ethers
toUtf8Bytes and toUtf8String helpers. -/

/-- UTF-8 encoding of one Unicode scalar value. -/
def utf8EncodeScalar (v : Nat) : List Nat :=
  if v < 0x80 then [v]
  else if v < 0x800 then [0xC0 + v / 64, 0x80 + v % 64]
  else if v < 0x10000 then [0xE0 + v / 4096, 0x80 + v / 64 % 64, 0x80 + v % 64]
  else [0xF0 + v / 262144, 0x80 + v / 4096 % 64, 0x80 + v / 64 % 64, 0x80 + v % 64]

/-- UTF-8 encoding of one character. -/
def utf8EncodeChar (c : Char) : List Nat := utf8EncodeScalar c.toNat

/-- UTF-8 encoding of a character list. -/
def utf8EncodeList : List Char → List Nat
  | [] => []
  | c :: cs => utf8EncodeChar c ++ utf8EncodeList cs

/-- UTF-8 encoding of a string, as ethers toUtf8Bytes produces. -/
def utf8Str (s : String) : List Nat := utf8EncodeList s.data

/-- Whether a byte is a UTF-8 continuation byte. -/
def isUtf8Cont (b : Nat) : Bool := decide (0x80 ≤ b) && decide (b ≤ 0xBF)

/-- Admissible second byte of a three-byte UTF-8 sequence (excludes
overlong encodings and surrogate code points, which strict decoding
rejects). -/
def utf8SecondOk3 (b0 b1 : Nat) : Bool :=
  if b0 = 0xE0 then decide (0xA0 ≤ b1) && decide (b1 ≤ 0xBF)
  else if b0 = 0xED then decide (0x80 ≤ b1) && decide (b1 ≤ 0x9F)
  else isUtf8Cont b1

/-- Admissible second byte of a four-byte UTF-8 sequence (excludes
overlong encodings and values above the last Unicode scalar). -/
def utf8SecondOk4 (b0 b1 : Nat) : Bool :=
  if b0 = 0xF0 then decide (0x90 ≤ b1) && decide (b1 ≤ 0xBF)
  else if b0 = 0xF4 then decide (0x80 ≤ b1) && decide (b1 ≤ 0x8F)
  else isUtf8Cont b1

/-- Parses one scalar value from the byte stream: the leading byte b0
followed by the remaining bytes; returns the scalar and the bytes left,
or none on any malformed sequence (bad lead byte, missing or bad
continuation byte, overlong form, surrogate, out of range). -/
def utf8DecodeOne (b0 : Nat) (t : List Nat) : Option (Nat × List Nat) :=
  if b0 < 0x80 then some (b0, t)
  else if b0 < 0xC2 then none
  else if b0 ≤ 0xDF then
    match t with
    | b1 :: t1 =>
      if isUtf8Cont b1 then some ((b0 - 0xC0) * 64 + (b1 - 0x80), t1) else none
    | [] => none
  else if b0 ≤ 0xEF then
    match t with
    | b1 :: b2 :: t2 =>
      if utf8SecondOk3 b0 b1 && isUtf8Cont b2 then
        some ((b0 - 0xE0) * 4096 + (b1 - 0x80) * 64 + (b2 - 0x80), t2)
      else none
    | _ => none
  else if b0 ≤ 0xF4 then
    match t with
    | b1 :: b2 :: b3 :: t3 =>
      if utf8SecondOk4 b0 b1 && isUtf8Cont b2 && isUtf8Cont b3 then
        some ((b0 - 0xF0) * 262144 + (b1 - 0x80) * 4096 + (b2 - 0x80) * 64 +
          (b3 - 0x80), t3)
      else none
    | _ => none
  else none

/-- The decoding loop: parse scalars until the bytes are exhausted.  The
fuel bounds the number of scalars; every scalar consumes at least one
byte, so a fuel equal to the byte count never runs out. -/
def utf8DecodeGo : Nat → List Nat → Option (List Char)
  | _, [] => some []
  | 0, _ :: _ => none
  | fuel + 1, b0 :: t =>
    match utf8DecodeOne b0 t with
    | some (v, rest) => (utf8DecodeGo fuel rest).map (fun cs => Char.ofNat v :: cs)
    | none => none

/-- Strict UTF-8 decoding of a byte list, rejecting malformed input the
way the ethers toUtf8String helper does in its default error mode. -/
def utf8Decode (bs : List Nat) : Option (List Char) :=
  utf8DecodeGo bs.length bs

/-! Hex decoding, as the ethers getBytes helper performs on hex strings. -/

/-- Value of one hex digit character. -/
def hexDigitVal (c : Char) : Option Nat :=
  let n := c.toNat
  if 48 ≤ n ∧ n ≤ 57 then some (n - 48)
  else if 97 ≤ n ∧ n ≤ 102 then some (n - 87)
  else if 65 ≤ n ∧ n ≤ 70 then some (n - 55)
  else none

/-- Decodes pairs of hex digits into bytes; fails on odd length or a
non-hex character. -/
def hexPairs : List Char → Option (List Nat)
  | [] => some []
  | [_] => none
  | c1 :: c2 :: rest =>
    match hexDigitVal c1, hexDigitVal c2, hexPairs rest with
    | some hi, some lo, some bs => some ((hi * 16 + lo) :: bs)
    | _, _, _ => none

/-- Models ethers getBytes on a string: requires the 0x marker followed
by an even number of hex digits. -/
def hexToBytes (s : String) : Option (List Nat) :=
  match s.data with
  | '0' :: 'x' :: rest => hexPairs rest
  | _ => none

/-- Models ethers toUtf8String: hex-decode the string to bytes, then
strictly UTF-8 decode those bytes; any failure raises, modelled as none. -/
def toUtf8String (s : String) : Option String :=
  match hexToBytes s with
  | some bs =>
    match utf8Decode bs with
    | some cs => some (String.mk cs)
    | none => none
  | none => none

/-! Modelled from the spec: the EIP-712 hashing algorithm implemented by
the external ethers TypedDataEncoder (hashDomain, hashStruct, hash),
which is not part of this repository.  Keccak-256 is a free constructor
over structured preimages; a preimage is a sequence of literal bytes,
abstract 32-byte words, and embedded digests. -/

/-- An atomic EIP-712 message value: a string (address, hex data) or a
numeric value. -/
inductive EthValue where
  | str (s : String)
  | num (n : Nat)
deriving DecidableEq

/-- Structured keccak preimage: a sequence of byte literals, abstract
32-byte value words, and embedded 32-byte digests. -/
inductive Pre where
  | emp : Pre
  | bytes (bs : List Nat) (rest : Pre)
  | word (v : EthValue) (rest : Pre)
  | hashed (p : Pre) (rest : Pre)
deriving DecidableEq

/-- Abstract keccak-256 output, determined by its preimage. -/
structure Digest where
  pre : Pre
deriving DecidableEq

/-- Modelled from the spec: keccak256 as a collision-free abstract hash;
two digests agree exactly when their preimages do. -/
def keccak256 (p : Pre) : Digest := ⟨p⟩

/-- Fields of one EIP-712 struct type: ordered name and type pairs. -/
abbrev TypeFields := List (String × String)

/-- The caller-supplied EIP-712 types map. -/
abbrev TypesMap := List (String × TypeFields)

/-- An EIP-712 message or domain object: ordered key and value pairs. -/
abbrev EthObject := List (String × EthValue)

/-- Association list lookup by string key. -/
def assocLookup {β : Type} (k : String) : List (String × β) → Option β
  | [] => none
  | (k2, v) :: rest => if k2 = k then some v else assocLookup k rest

/-- Comma-joined field list of the canonical EIP-712 type string. -/
def encodeTypeFields : TypeFields → String
  | [] => ""
  | [(n, t)] => t ++ " " ++ n
  | (n, t) :: rest => t ++ " " ++ n ++ "," ++ encodeTypeFields rest

/-- Modelled from the spec: the canonical EIP-712 encodeType string of a
struct type. -/
def encodeTypeStr (primaryType : String) (fields : TypeFields) : String :=
  primaryType ++ "(" ++ encodeTypeFields fields ++ ")"

/-- Byte content of a bytes-typed field value: ethers decodes a hex
string to its raw bytes. -/
def contentBytes : EthValue → List Nat
  | EthValue.str s => (hexToBytes s).getD []
  | EthValue.num _ => []

/-- Byte content of a string-typed field value. -/
def strContentBytes : EthValue → List Nat
  | EthValue.str s => utf8Str s
  | EthValue.num _ => []

/-- Modelled from the spec: the 32-byte word contributed by one field in
EIP-712 encodeData.  Dynamic types (bytes, string) contribute the keccak
hash of their content; atomic types contribute their padded value word. -/
def encodeFieldPre (ty : String) (v : EthValue) (rest : Pre) : Pre :=
  if ty = "bytes" then Pre.hashed (Pre.bytes (contentBytes v) Pre.emp) rest
  else if ty = "string" then Pre.hashed (Pre.bytes (strContentBytes v) Pre.emp) rest
  else Pre.word v rest

/-- Modelled from the spec: EIP-712 encodeData, one word per declared
field in declaration order. -/
def encodeDataPre (fields : TypeFields) (message : EthObject) : Pre :=
  match fields with
  | [] => Pre.emp
  | (name, ty) :: rest =>
    encodeFieldPre ty ((assocLookup name message).getD (EthValue.str ""))
      (encodeDataPre rest message)

/-- Modelled from the spec: EIP-712 hashStruct: keccak of the type hash
followed by the encoded data words. -/
def hashStruct (primaryType : String) (types : TypesMap) (message : EthObject) : Digest :=
  let fields := (assocLookup primaryType types).getD []
  keccak256 (Pre.hashed (Pre.bytes (utf8Str (encodeTypeStr primaryType fields)) Pre.emp)
    (encodeDataPre fields message))

/-- EIP-712 type of each domain field, per the standard. -/
def domainFieldType (name : String) : String :=
  if name = "name" then "string"
  else if name = "version" then "string"
  else if name = "chainId" then "uint256"
  else if name = "verifyingContract" then "address"
  else if name = "salt" then "bytes32"
  else ""

/-- EIP712Domain type fields derived from the fields present in the
domain object (the domains in this repository list them in the
standard's canonical order). -/
def domainTypeFields (domain : EthObject) : TypeFields :=
  domain.map (fun p => (p.1, domainFieldType p.1))

/-- Modelled from the spec: ethers TypedDataEncoder.hashDomain. -/
def hashDomain (domain : EthObject) : Digest :=
  hashStruct "EIP712Domain" [("EIP712Domain", domainTypeFields domain)] domain

/-- Modelled from the spec: the final EIP-712 digest
keccak256 of 0x1901 followed by the domain hash and the struct hash. -/
def eip712DigestHash (domain : EthObject) (types : TypesMap) (primaryType : String)
    (message : EthObject) : Digest :=
  keccak256 (Pre.bytes [0x19, 0x01]
    (Pre.hashed (hashDomain domain).pre
      (Pre.hashed (hashStruct primaryType types message).pre Pre.emp)))

/-- Whether a type name is referenced as the field type of some entry. -/
def typeIsReferenced (types : TypesMap) (k : String) : Bool :=
  types.any (fun e => e.2.any (fun f => f.2 = k))

/-- Modelled from the spec: ethers infers the primary type of a types
map as the type no other type references. -/
def inferPrimaryType (types : TypesMap) : String :=
  (((types.map (fun e => e.1)).filter (fun k => ! typeIsReferenced types k)).headD "")

/-! Modelled from the spec: the ethers hashMessage helper implementing
the EIP-191 personal-sign transform. -/

/-- The EIP-191 personal-sign header bytes. -/
def ethereumSignedHeader : List Nat := utf8Str "\x19Ethereum Signed Message:\n"

/-- Decimal digit characters of a natural number, with fuel. -/
def natDecimalAux : Nat → Nat → List Char
  | 0, _ => []
  | fuel + 1, n =>
    if n < 10 then [Char.ofNat (48 + n)]
    else natDecimalAux fuel (n / 10) ++ [Char.ofNat (48 + n % 10)]

/-- Decimal digit characters of a natural number. -/
def natDecimalChars (n : Nat) : List Char := natDecimalAux (n + 1) n

/-- The EIP-191 preimage: header, decimal byte length, message bytes. -/
def eip191Framing (bs : List Nat) : List Nat :=
  ethereumSignedHeader ++ utf8EncodeList (natDecimalChars bs.length) ++ bs

/-- Modelled from the spec: ethers hashMessage on a string message:
keccak of the EIP-191 framing of its UTF-8 bytes. -/
def hashMessage (s : String) : Digest :=
  keccak256 (Pre.bytes (eip191Framing (utf8Str s)) Pre.emp)

/-! Embedding of src/app/utils/messageHashing.ts. -/

/-- Result of EIP-712 hash calculations, as returned by the functions in
messageHashing.ts. -/
structure EIP712HashResult where
  domainHash : Digest
  messageHash : Digest
  eip712Hash : Digest
  safeMessage : Option String
deriving DecidableEq

/-- Embeds calculateDomainHash: delegates to the encoder's hashDomain. -/
def calculateDomainHash (domain : EthObject) : Digest := hashDomain domain

/-- Embeds calculateStructHash: delegates to the encoder's hashStruct. -/
def calculateStructHash (primaryType : String) (types : TypesMap)
    (message : EthObject) : Digest :=
  hashStruct primaryType types message

/-- Embeds calculateEIP712Hash: delegates to the encoder's full hash,
whose primary type ethers infers from the types map. -/
def calculateEIP712Hash (domain : EthObject) (types : TypesMap)
    (message : EthObject) : Digest :=
  eip712DigestHash domain types (inferPrimaryType types) message

/-- Embeds calculateSafeMessageHashes from messageHashing.ts.  The
source declares safeVersion with default value 1.4.1; here it is an
explicit argument.  The version comparison is the JS string
greater-or-equal operator, as in the source. -/
def calculateSafeMessageHashes (safeAddress : String) (chainId : Nat)
    (messageContent : String) (safeVersion : String) : EIP712HashResult :=
  let includeChainId := jsStringGE safeVersion "1.3.0"
  let domain : EthObject :=
    if includeChainId then
      [("chainId", EthValue.num chainId), ("verifyingContract", EthValue.str safeAddress)]
    else
      [("verifyingContract", EthValue.str safeAddress)]
  let types : TypesMap := [("SafeMessage", [("message", "bytes")])]
  let message : EthObject := [("message", EthValue.str messageContent)]
  { domainHash := calculateDomainHash domain
    messageHash := calculateStructHash "SafeMessage" types message
    eip712Hash := calculateEIP712Hash domain types message
    safeMessage := some messageContent }

/-- Embeds calculatePersonalSignHash from messageHashing.ts: a string
starting with 0x is passed to ethers toUtf8String; on failure the
literal string is kept; the result goes through ethers hashMessage. -/
def calculatePersonalSignHash (message : String) : Digest :=
  let decodedMessage :=
    if jsStartsWith0x message then
      match toUtf8String message with
      | some s => s
      | none => message
    else message
  hashMessage decodedMessage

/-- Embeds calculateSafeTxHashes from messageHashing.ts.  The source
accepts bigint or decimal-string values for the uint256 fields; both
denote the same integer, modelled as Nat. -/
structure SafeTxInput where
  «to» : String
  value : Nat
  data : String
  operation : Nat
  safeTxGas : Nat
  baseGas : Nat
  gasPrice : Nat
  gasToken : String
  refundReceiver : String
  nonce : Nat
deriving DecidableEq

/-- Embeds calculateSafeTxHashes: fixed SafeTx type with its ten fields,
domain of chainId and verifyingContract, three hashes computed by the
encoder. -/
def calculateSafeTxHashes (safeAddress : String) (chainId : Nat)
    (safeTx : SafeTxInput) : EIP712HashResult :=
  let domain : EthObject :=
    [("chainId", EthValue.num chainId), ("verifyingContract", EthValue.str safeAddress)]
  let types : TypesMap :=
    [("SafeTx",
      [("to", "address"), ("value", "uint256"), ("data", "bytes"), ("operation", "uint8"),
       ("safeTxGas", "uint256"), ("baseGas", "uint256"), ("gasPrice", "uint256"),
       ("gasToken", "address"), ("refundReceiver", "address"), ("nonce", "uint256")])]
  let message : EthObject :=
    [("to", EthValue.str safeTx.«to»), ("value", EthValue.num safeTx.value),
     ("data", EthValue.str safeTx.data), ("operation", EthValue.num safeTx.operation),
     ("safeTxGas", EthValue.num safeTx.safeTxGas), ("baseGas", EthValue.num safeTx.baseGas),
     ("gasPrice", EthValue.num safeTx.gasPrice), ("gasToken", EthValue.str safeTx.gasToken),
     ("refundReceiver", EthValue.str safeTx.refundReceiver),
     ("nonce", EthValue.num safeTx.nonce)]
  { domainHash := calculateDomainHash domain
    messageHash := calculateStructHash "SafeTx" types message
    eip712Hash := calculateEIP712Hash domain types message
    safeMessage := none }

/-! Embedding of the transaction ledger: the SafeTxProvider in
src/app/safe/[address]/wc-sign/WalletConnectSignClient.tsx.  Every
provider operation reads and writes the array stored for one safe
address, so the state is embedded as that per-address list. -/

/-- Modelled from the spec: one owner signature as stored by the
protocol-kit EthSafeSignature class: signer, hex data and the contract
signature flag. -/
structure EthSafeSignature where
  signer : String
  data : String
  isContractSignature : Bool
deriving DecidableEq

/-- Transaction data fields of a protocol-kit EthSafeTransaction; the
uint256-valued fields are decimal or hex strings there, the operation
and nonce are numbers. -/
structure SafeTxData where
  «to» : String
  value : String
  data : String
  operation : Nat
  safeTxGas : String
  baseGas : String
  gasPrice : String
  gasToken : String
  refundReceiver : String
  nonce : Nat
deriving DecidableEq

/-- A pending transaction: data plus the JS Map of signatures, embedded
as its entry list of key and signature pairs in insertion order. -/
structure EthSafeTransaction where
  data : SafeTxData
  signatures : List (String × EthSafeSignature)
deriving DecidableEq

/-- Models JS Map.prototype.set: an existing key keeps its position and
receives the new value; a new key is appended at the end. -/
def mapSet {β : Type} (k : String) (v : β) (m : List (String × β)) : List (String × β) :=
  if m.any (fun kv => kv.1 == k) then
    m.map (fun kv => if kv.1 = k then (k, v) else kv)
  else m ++ [(k, v)]

/-- Modelled from the spec: protocol-kit EthSafeTransaction.addSignature
stores the signature in the signatures Map keyed by the lower-cased
signer address (the normalized-key, case-insensitive map the spec
describes; part_002 line 754 reads the map back with a lower-cased
key). -/
def addSignature (tx : EthSafeTransaction) (sig : EthSafeSignature) : EthSafeTransaction :=
  { tx with signatures := mapSet (jsToLowerCase sig.signer) sig tx.signatures }

/-- Models the new EthSafeTransaction constructor: given data, the
signature map starts empty. -/
def newEthSafeTransaction (d : SafeTxData) : EthSafeTransaction := ⟨d, []⟩

/-- The numeric nonce comparison backing the JS sort comparator. -/
def nonceLeProp (a b : EthSafeTransaction) : Prop := a.data.nonce ≤ b.data.nonce

instance : DecidableRel nonceLeProp := fun _ _ => Nat.decLe _ _

instance : IsTotal EthSafeTransaction nonceLeProp := ⟨fun _ _ => Nat.le_total _ _⟩

instance : IsTrans EthSafeTransaction nonceLeProp := ⟨fun _ _ _ => Nat.le_trans⟩

/-- Models the JS array sort with the numeric nonce comparator.  The JS
sort is stable, and a stable sort of a total preorder has a unique
result, so the choice of stable sorting algorithm (here insertion sort)
does not matter. -/
def jsSortByNonce (txs : List EthSafeTransaction) : List EthSafeTransaction :=
  txs.insertionSort nonceLeProp

/-- Models the JS findIndex over the list with the nonce equality
predicate the source uses. -/
def jsFindIndexNonce (n : Nat) : List EthSafeTransaction → Option Nat
  | [] => none
  | t :: rest =>
    if t.data.nonce = n then some 0 else (jsFindIndexNonce n rest).map (fun i => i + 1)

/-- Embeds saveTransaction for one safe address: replace the entry whose
nonce equals the incoming nonce if one exists (findIndex), else append;
then sort ascending by numeric nonce. -/
def saveTransaction (existingTxs : List EthSafeTransaction)
    (txObj : EthSafeTransaction) : List EthSafeTransaction :=
  let updated :=
    match jsFindIndexNonce txObj.data.nonce existingTxs with
    | some i => existingTxs.set i txObj
    | none => existingTxs ++ [txObj]
  jsSortByNonce updated

/-- Models JSON.stringify on the transaction data object: a JSON object
literal, whose first character is an opening brace (value escaping is
omitted; only the leading character matters below). -/
def jsonStringifyTxData (d : SafeTxData) : String :=
  "\x7b\"to\":\"" ++ d.«to» ++ "\",\"value\":\"" ++ d.value ++ "\",\"data\":\"" ++ d.data
    ++ "\",\"operation\":" ++ String.mk (natDecimalChars d.operation)
    ++ ",\"safeTxGas\":\"" ++ d.safeTxGas ++ "\",\"baseGas\":\"" ++ d.baseGas
    ++ "\",\"gasPrice\":\"" ++ d.gasPrice ++ "\",\"gasToken\":\"" ++ d.gasToken
    ++ "\",\"refundReceiver\":\"" ++ d.refundReceiver
    ++ "\",\"nonce\":" ++ String.mk (natDecimalChars d.nonce) ++ "\x7d"

/-- Models JSON.stringify on a string value: a JSON string literal,
whose first character is a double quote (escaping omitted; the hash
strings involved contain nothing to escape). -/
def jsonStringifyStr (s : String) : String := "\"" ++ s ++ "\""

/-- Embeds removeTransaction for one safe address.  With no hash
argument the whole list is cleared.  With a hash, the source keeps every
transaction whose JSON.stringify of the data object differs from
JSON.stringify of the hash string. -/
def removeTransaction (existingTxs : List EthSafeTransaction) :
    Option String → List EthSafeTransaction
  | none => []
  | some txHash =>
    existingTxs.filter (fun tx => jsonStringifyTxData tx.data != jsonStringifyStr txHash)

/-- One entry of the stored and exported JSON shape: transaction data
plus signature triples, each possibly absent in foreign payloads. -/
structure StoredTx where
  data : Option SafeTxData
  signatures : Option (List EthSafeSignature)
deriving DecidableEq

/-- Embeds exportTx for one safe address, at the parsed-value level: an
empty list exports the empty string (none here); otherwise the document
holds the transactions array of data plus signature triples taken from
the map values in order. -/
def exportTx (txs : List EthSafeTransaction) : Option (List StoredTx) :=
  if txs.isEmpty then none
  else some (txs.map (fun tx =>
    { data := some tx.data
      signatures := some (tx.signatures.map (fun kv => kv.2)) }))

/-- The parsed shape of an importTx payload: a JSON.parse failure (the
source catch swallows it), a document with a transactions array (new
format), a document with a single tx entry (old format), or any other
value. -/
inductive ImportPayload where
  | parseError
  | newFormat (transactions : List StoredTx)
  | oldFormat (tx : StoredTx)
  | otherShape
deriving DecidableEq

/-- Rebuilds one stored transaction the way importTx does: a fresh
EthSafeTransaction over the data, then addSignature for each triple in
order. -/
def rebuildStored (d : SafeTxData) (sigs : Option (List EthSafeSignature)) :
    EthSafeTransaction :=
  match sigs with
  | some l => l.foldl (fun tx s => addSignature tx s) (newEthSafeTransaction d)
  | none => newEthSafeTransaction d

/-- The transactions importTx builds from a transactions array: exactly
the entries that carry a data field, in order. -/
def collectImported : List StoredTx → List EthSafeTransaction
  | [] => []
  | e :: rest =>
    match e.data with
    | some d => rebuildStored d e.signatures :: collectImported rest
    | none => collectImported rest

/-- Embeds importTx for one safe address: build the transaction list
from the payload (new format array, or old format single entry); when at
least one transaction was built, sort by nonce and replace the stored
list; otherwise, including on every failure, leave the state unchanged.
The source catches every error and reports nothing to its caller. -/
def importTx (txs : List EthSafeTransaction) (payload : ImportPayload) :
    List EthSafeTransaction :=
  let transactions :=
    match payload with
    | ImportPayload.parseError => []
    | ImportPayload.newFormat l => collectImported l
    | ImportPayload.oldFormat e =>
      match e.data with
      | some d => [rebuildStored d e.signatures]
      | none => []
    | ImportPayload.otherShape => []
  if transactions.isEmpty then txs
  else jsSortByNonce transactions

/-- Feeding an exported document back to importTx: an empty export (the
empty string) fails JSON.parse; a non-empty export parses to the new
format document. -/
def parseExport : Option (List StoredTx) → ImportPayload
  | none => ImportPayload.parseError
  | some l => ImportPayload.newFormat l

/-! Reference semantics for getAllTransactions: the in-memory map stores
a reference to a mutable array per safe address, and the source returns
that reference, not a copy. -/

/-- Heap of array objects, addressed by reference. -/
abbrev TxHeap := List (Nat × List EthSafeTransaction)

/-- Reads the array a reference points to. -/
def heapGet (h : TxHeap) (r : Nat) : Option (List EthSafeTransaction) :=
  match h with
  | [] => none
  | (r2, l) :: rest => if r2 = r then some l else heapGet rest r

/-- Writes through a reference: models a caller mutating the array in
place. -/
def heapSet (h : TxHeap) (r : Nat) (l : List EthSafeTransaction) : TxHeap :=
  match h with
  | [] => []
  | (r2, l2) :: rest => if r2 = r then (r2, l) :: rest else (r2, l2) :: heapSet rest r l

/-- The provider state: the heap of array objects, and the map from safe
address to the reference of its transactions array. -/
structure TxStore where
  heap : TxHeap
  index : List (String × Nat)
deriving DecidableEq

/-- Embeds getAllTransactions with explicit reference semantics: the
source returns the stored array itself when the address has one, and a
fresh empty array (allocated at an unused reference) otherwise; nothing
is copied. -/
def getAllTransactions (st : TxStore) (fresh : Nat) (safeAddress : String) :
    Nat × TxHeap :=
  match assocLookup safeAddress st.index with
  | some r => (r, st.heap)
  | none => (fresh, (fresh, []) :: st.heap)

/-! Reference semantics for calculateTypedDataHash of messageHashing.ts:
the caller-supplied types map is a mutable JS object. -/

/-- Heap of mutable objects holding EIP-712 types maps. -/
abbrev TypesHeap := List (Nat × TypesMap)

/-- Reads the types object a reference points to. -/
def typesHeapGet (h : TypesHeap) (r : Nat) : Option TypesMap :=
  match h with
  | [] => none
  | (r2, m) :: rest => if r2 = r then some m else typesHeapGet rest r

/-- Writes the types object a reference points to. -/
def typesHeapSet (h : TypesHeap) (r : Nat) (m : TypesMap) : TypesHeap :=
  match h with
  | [] => []
  | (r2, m2) :: rest => if r2 = r then (r2, m) :: rest else (r2, m2) :: typesHeapSet rest r m

/-- Models the JS delete of one property of a types object. -/
def deleteTypeKey (k : String) (m : TypesMap) : TypesMap :=
  m.filter (fun e => e.1 != k)

/-- The typed data argument of calculateTypedDataHash; its types field
is a reference to the caller-owned mutable object. -/
structure TypedDataArg where
  domain : EthObject
  typesRef : Nat
  primaryType : String
  message : EthObject
deriving DecidableEq

/-- Embeds calculateTypedDataHash with explicit object semantics: the
source spreads the caller's types object into a fresh object (a copy at
an unused reference), deletes the EIP712Domain entry of that copy only,
hashes with the stripped copy, and returns the hashes; the final heap is
returned alongside. -/
def calculateTypedDataHash (heap : TypesHeap) (fresh : Nat) (td : TypedDataArg) :
    TypesHeap × EIP712HashResult :=
  let types := (typesHeapGet heap td.typesRef).getD []
  let heap1 := (fresh, types) :: heap
  let typesWithoutDomain := deleteTypeKey "EIP712Domain" types
  let heap2 := typesHeapSet heap1 fresh typesWithoutDomain
  (heap2,
    { domainHash := calculateDomainHash td.domain
      messageHash := calculateStructHash td.primaryType typesWithoutDomain td.message
      eip712Hash := calculateEIP712Hash td.domain typesWithoutDomain td.message
      safeMessage := none })

/-! Spec-side constructions the claims compare against. -/

/-- The SafeTx hash construction exactly as the claim words it: the
EIP-712 SafeTx type with its ten fields in the order to, value, data,
operation, safeTxGas, baseGas, gasPrice, gasToken, refundReceiver,
nonce; the domain of chainId and verifyingContract; the domain hash and
message hash from hashStruct; and the digest from keccak256 of 0x19 0x01
followed by the two hashes. -/
def specSafeTxHashes (safeAddress : String) (chainId : Nat)
    (safeTx : SafeTxInput) : EIP712HashResult :=
  let domain : EthObject :=
    [("chainId", EthValue.num chainId), ("verifyingContract", EthValue.str safeAddress)]
  let domainTypes : TypesMap :=
    [("EIP712Domain", [("chainId", "uint256"), ("verifyingContract", "address")])]
  let types : TypesMap :=
    [("SafeTx",
      [("to", "address"), ("value", "uint256"), ("data", "bytes"), ("operation", "uint8"),
       ("safeTxGas", "uint256"), ("baseGas", "uint256"), ("gasPrice", "uint256"),
       ("gasToken", "address"), ("refundReceiver", "address"), ("nonce", "uint256")])]
  let message : EthObject :=
    [("to", EthValue.str safeTx.«to»), ("value", EthValue.num safeTx.value),
     ("data", EthValue.str safeTx.data), ("operation", EthValue.num safeTx.operation),
     ("safeTxGas", EthValue.num safeTx.safeTxGas), ("baseGas", EthValue.num safeTx.baseGas),
     ("gasPrice", EthValue.num safeTx.gasPrice), ("gasToken", EthValue.str safeTx.gasToken),
     ("refundReceiver", EthValue.str safeTx.refundReceiver),
     ("nonce", EthValue.num safeTx.nonce)]
  let dh := hashStruct "EIP712Domain" domainTypes domain
  let mh := hashStruct "SafeTx" types message
  { domainHash := dh
    messageHash := mh
    eip712Hash := keccak256 (Pre.bytes [0x19, 0x01]
      (Pre.hashed dh.pre (Pre.hashed mh.pre Pre.emp)))
    safeMessage := none }

/-- The personal-sign computation exactly as the claim words it: a 0x
string is decoded from hex to its raw byte form and those bytes are
framed and hashed; only a failure of that hex decoding falls back to
hashing the literal string. -/
def specPersonalSignHash (message : String) : Digest :=
  if jsStartsWith0x message then
    match hexToBytes message with
    | some bs => keccak256 (Pre.bytes (eip191Framing bs) Pre.emp)
    | none => hashMessage message
  else hashMessage message

/-! State predicates used by the ledger theorems. -/

/-- The nonces of a transaction list. -/
def nonceList (txs : List EthSafeTransaction) : List Nat :=
  txs.map (fun t => t.data.nonce)

/-- At most one stored transaction per nonce. -/
def NonceUnique (txs : List EthSafeTransaction) : Prop := (nonceList txs).Nodup

/-- Ascending numeric nonce order. -/
def SortedByNonce (txs : List EthSafeTransaction) : Prop :=
  List.Pairwise nonceLeProp txs

/-- Well-formedness of one signature map: every entry is keyed by the
lower-cased signer of its value, and keys are distinct (the JS Map
invariant). -/
def SigMapWF (tx : EthSafeTransaction) : Prop :=
  (∀ kv ∈ tx.signatures, kv.1 = jsToLowerCase kv.2.signer) ∧
    (tx.signatures.map (fun kv => kv.1)).Nodup

/-- Well-formedness of a stored transaction list. -/
def LedgerWF (txs : List EthSafeTransaction) : Prop := ∀ tx ∈ txs, SigMapWF tx

instance (txs : List EthSafeTransaction) : Decidable (NonceUnique txs) :=
  inferInstanceAs (Decidable (nonceList txs).Nodup)

instance (txs : List EthSafeTransaction) : Decidable (SortedByNonce txs) :=
  inferInstanceAs (Decidable (List.Pairwise nonceLeProp txs))

instance (tx : EthSafeTransaction) : Decidable (SigMapWF tx) :=
  inferInstanceAs (Decidable (_ ∧ _))

instance (txs : List EthSafeTransaction) : Decidable (LedgerWF txs) :=
  inferInstanceAs (Decidable (∀ tx ∈ txs, SigMapWF tx))

/-- The set of valid transactions of an import payload, as the claim
words it: the entries that carry a data field, each rebuilt with its
signatures; an unparseable payload has none. -/
def validImported (payload : ImportPayload) : List EthSafeTransaction :=
  match payload with
  | ImportPayload.parseError => []
  | ImportPayload.newFormat l =>
    l.filterMap (fun e => e.data.map (fun d => rebuildStored d e.signatures))
  | ImportPayload.oldFormat e =>
    (e.data.map (fun d => rebuildStored d e.signatures)).toList
  | ImportPayload.otherShape => []

/-! Helper lemmas. -/

/-- A stringified transaction data object never equals a stringified
hash string: the former starts with an opening brace, the latter with a
double quote. -/
theorem jsonStringifyTxData_ne (d : SafeTxData) (s : String) :
    jsonStringifyTxData d ≠ jsonStringifyStr s := by
  intro h
  have h2 := congrArg (fun t => t.data.head?) h
  simp only [jsonStringifyTxData, jsonStringifyStr, String.data_append] at h2
  simp at h2

/-- Writing through a live reference is visible at that reference. -/
theorem heapGet_heapSet_of_some (h : TxHeap) (r : Nat) (l0 l1 : List EthSafeTransaction)
    (hr : heapGet h r = some l0) : heapGet (heapSet h r l1) r = some l1 := by
  induction h with
  | nil => simp [heapGet] at hr
  | cons kv rest ih =>
    by_cases hk : kv.1 = r
    · simp [heapGet, heapSet, hk]
    · simp only [heapGet, heapSet, hk, if_false] at hr ⊢
      exact ih hr

/-- The transactions importTx builds are exactly the entries with a data
field, rebuilt with their signatures. -/
theorem collectImported_eq_filterMap (l : List StoredTx) :
    collectImported l =
      l.filterMap (fun e => e.data.map (fun d => rebuildStored d e.signatures)) := by
  induction l with
  | nil => rfl
  | cons e rest ih =>
    cases hd : e.data <;> simp [collectImported, hd, ih]

/-- When findIndex misses, no stored transaction has the nonce. -/
theorem jsFindIndexNonce_none (n : Nat) (txs : List EthSafeTransaction)
    (h : jsFindIndexNonce n txs = none) : ∀ t ∈ txs, t.data.nonce ≠ n := by
  induction txs with
  | nil => intro t ht; cases ht
  | cons x rest ih =>
    intro t ht
    rw [jsFindIndexNonce] at h
    by_cases hx : x.data.nonce = n
    · rw [if_pos hx] at h; cases h
    · rw [if_neg hx] at h
      rcases List.mem_cons.mp ht with rfl | ht
      · exact hx
      · exact ih (by cases hr : jsFindIndexNonce n rest <;> simp [hr] at h ⊢) t ht

/-- When findIndex hits, some stored transaction has the nonce. -/
theorem jsFindIndexNonce_some_mem (n : Nat) (txs : List EthSafeTransaction) (i : Nat)
    (h : jsFindIndexNonce n txs = some i) : ∃ t ∈ txs, t.data.nonce = n := by
  induction txs generalizing i with
  | nil => cases h
  | cons x rest ih =>
    rw [jsFindIndexNonce] at h
    by_cases hx : x.data.nonce = n
    · exact ⟨x, List.mem_cons_self x rest, hx⟩
    · rw [if_neg hx] at h
      cases hr : jsFindIndexNonce n rest with
      | none => rw [hr] at h; cases h
      | some j =>
        obtain ⟨t, ht, hn⟩ := ih j hr
        exact ⟨t, List.mem_cons_of_mem x ht, hn⟩

/-- Replacing the findIndex hit with a transaction of the same nonce
leaves the nonce list unchanged. -/
theorem nonceList_set_of_find (n : Nat) (txs : List EthSafeTransaction)
    (i : Nat) (tx : EthSafeTransaction) (h : jsFindIndexNonce n txs = some i)
    (htx : tx.data.nonce = n) : nonceList (txs.set i tx) = nonceList txs := by
  induction txs generalizing i with
  | nil => cases h
  | cons x rest ih =>
    rw [jsFindIndexNonce] at h
    by_cases hx : x.data.nonce = n
    · rw [if_pos hx] at h
      cases h
      simp [nonceList, htx, hx]
    · rw [if_neg hx] at h
      cases hr : jsFindIndexNonce n rest with
      | none => rw [hr] at h; cases h
      | some j =>
        rw [hr] at h
        cases h
        have hih := ih j hr
        simp only [nonceList] at hih
        simp only [nonceList, List.map_cons, List.set_cons_succ]
        rw [hih]

/-- Sorting permutes the nonce list. -/
theorem nonceList_jsSortByNonce_perm (txs : List EthSafeTransaction) :
    List.Perm (nonceList (jsSortByNonce txs)) (nonceList txs) := by
  simp only [nonceList, jsSortByNonce]
  exact (List.perm_insertionSort nonceLeProp txs).map (fun t => t.data.nonce)

/-! JS Map lemmas. -/

/-- Setting an absent key appends the new entry. -/
theorem mapSet_of_not_mem {β : Type} (k : String) (v : β) (m : List (String × β))
    (h : ∀ kv ∈ m, kv.1 ≠ k) : mapSet k v m = m ++ [(k, v)] := by
  rw [mapSet, if_neg]
  intro hc
  rw [List.any_eq_true] at hc
  obtain ⟨kv, hm, he⟩ := hc
  exact h kv hm (beq_iff_eq.mp he)

/-- Replacing entries of an absent key changes nothing. -/
theorem map_replace_of_not_mem {β : Type} (k : String) (v : β) (m : List (String × β))
    (h : ∀ kv ∈ m, kv.1 ≠ k) :
    m.map (fun kv => if kv.1 = k then (k, v) else kv) = m := by
  induction m with
  | nil => rfl
  | cons kv2 rest ih =>
    simp only [List.map_cons, if_neg (h kv2 (List.mem_cons_self kv2 rest))]
    rw [ih (fun kv hm => h kv (List.mem_cons_of_mem kv2 hm))]

/-- Setting a key distinct from the head commutes with the head. -/
theorem mapSet_cons_ne {β : Type} (k k2 : String) (v : β) (v2 : β)
    (m : List (String × β)) (hk : k2 ≠ k) :
    mapSet k v ((k2, v2) :: m) = (k2, v2) :: mapSet k v m := by
  by_cases ha : m.any (fun kv => kv.1 == k)
  · simp only [mapSet, List.any_cons, ha, Bool.or_true, if_pos, if_neg hk]
    simp [hk]
  · simp only [mapSet, List.any_cons, Bool.eq_false_iff.mpr ha, Bool.or_false]
    rw [if_neg (by simp [hk])]
    simp

/-- Filtering a map by the key just set yields exactly the new entry,
provided keys were distinct. -/
theorem filter_mapSet_eq_single {β : Type} (k : String) (v : β) (m : List (String × β))
    (hnd : (m.map (fun kv => kv.1)).Nodup) :
    (mapSet k v m).filter (fun kv => kv.1 == k) = [(k, v)] := by
  induction m with
  | nil => simp [mapSet]
  | cons kv2 rest ih =>
    simp only [List.map_cons, List.nodup_cons] at hnd
    by_cases hk : kv2.1 = k
    · have hrest : ∀ kv ∈ rest, kv.1 ≠ k := by
        intro kv hm he
        apply hnd.1
        rw [hk]
        exact List.mem_map.mpr ⟨kv, hm, he⟩
      have hset : mapSet k v (kv2 :: rest) = (k, v) :: rest := by
        rw [mapSet, if_pos (by simp [List.any_cons, hk])]
        simp only [List.map_cons, if_pos hk]
        rw [map_replace_of_not_mem k v rest hrest]
      rw [hset]
      have h0 : List.filter (fun kv => kv.1 == k) rest = [] :=
        List.filter_eq_nil_iff.mpr (fun kv hm => by simpa using hrest kv hm)
      simp [h0]
    · obtain ⟨k2, v2⟩ := kv2
      rw [mapSet_cons_ne k k2 v v2 rest hk]
      simp only [List.filter_cons]
      rw [if_neg (by simpa using hk)]
      exact ih hnd.2

/-- Setting a present key preserves the entry count. -/
theorem length_mapSet_of_mem {β : Type} (k : String) (v : β) (m : List (String × β))
    (h : ∃ kv ∈ m, kv.1 = k) : (mapSet k v m).length = m.length := by
  rw [mapSet, if_pos]
  · exact List.length_map m _
  · rw [List.any_eq_true]
    obtain ⟨kv, hm, he⟩ := h
    exact ⟨kv, hm, by simpa using he⟩

/-- The key just set is present afterwards. -/
theorem mem_keys_mapSet {β : Type} (k : String) (v : β) (m : List (String × β)) :
    ∃ kv ∈ mapSet k v m, kv.1 = k := by
  induction m with
  | nil => exact ⟨(k, v), by simp [mapSet], rfl⟩
  | cons kv2 rest ih =>
    by_cases hk : kv2.1 = k
    · refine ⟨(k, v), ?_, rfl⟩
      rw [mapSet, if_pos (by simp [List.any_cons, hk])]
      simp only [List.map_cons, if_pos hk]
      exact List.mem_cons_self _ _
    · obtain ⟨k2, v2⟩ := kv2
      rw [mapSet_cons_ne k k2 v v2 rest hk]
      obtain ⟨kv, hm, he⟩ := ih
      exact ⟨kv, List.mem_cons_of_mem _ hm, he⟩

/-- Setting a key keeps the key list duplicate-free. -/
theorem keys_nodup_mapSet {β : Type} (k : String) (v : β) (m : List (String × β))
    (hnd : (m.map (fun kv => kv.1)).Nodup) :
    ((mapSet k v m).map (fun kv => kv.1)).Nodup := by
  by_cases ha : m.any (fun kv => kv.1 == k)
  · rw [mapSet, if_pos ha, List.map_map]
    have : ((fun kv => kv.1) ∘ fun kv : String × β => if kv.1 = k then (k, v) else kv) =
        fun kv : String × β => kv.1 := by
      funext kv
      by_cases hk : kv.1 = k <;> simp [hk]
    rw [this]
    exact hnd
  · have ha2 : (m.any fun kv => kv.1 == k) = false := Bool.eq_false_iff.mpr ha
    rw [mapSet, if_neg ha, List.map_append]
    rw [List.nodup_append]
    refine ⟨hnd, List.nodup_singleton k, ?_⟩
    intro x hx hy
    simp only [List.map_cons, List.map_nil, List.mem_singleton] at hy
    obtain ⟨kv, hm, he⟩ := List.mem_map.mp hx
    rw [List.any_eq_false] at ha2
    exact ha2 kv hm (by simp [he, hy])

/-! Claim theorems. -/

/-- C1: For every safeAddress, chainId and complete SafeTx field set,
calculateSafeTxHashes builds the EIP-712 SafeTx type with exactly ten
fields in the order to, value, data, operation, safeTxGas, baseGas,
gasPrice, gasToken, refundReceiver, nonce, uses the domain of chainId
and verifyingContract, and returns the domain hash as hashStruct of
EIP712Domain over the domain, the message hash as hashStruct of SafeTx
over the message, and the digest as keccak256 of 0x19 0x01 followed by
the domain hash and message hash. -/
theorem safeTx_hashes_match_spec (safeAddress : String) (chainId : Nat)
    (safeTx : SafeTxInput) :
    calculateSafeTxHashes safeAddress chainId safeTx =
      specSafeTxHashes safeAddress chainId safeTx := rfl

/-- C6: calculateSafeMessageHashes includes chainId in the EIP-712
domain exactly when the safe version compares greater-or-equal to 1.3.0
under the JS string comparison the source uses, and omits it below; for
version 1.2.0 the domain is verifyingContract only, for 1.3.0 it is
chainId plus verifyingContract, and the two produce different domain
hashes for the same verifying contract. -/
theorem safeMessage_domain_version_gate (safeAddress : String) (chainId : Nat)
    (messageContent : String) :
    ((calculateSafeMessageHashes safeAddress chainId messageContent "1.2.0").domainHash =
        calculateDomainHash [("verifyingContract", EthValue.str safeAddress)])
  ∧ ((calculateSafeMessageHashes safeAddress chainId messageContent "1.3.0").domainHash =
        calculateDomainHash
          [("chainId", EthValue.num chainId), ("verifyingContract", EthValue.str safeAddress)])
  ∧ (∀ v : String, jsStringGE v "1.3.0" = true →
        (calculateSafeMessageHashes safeAddress chainId messageContent v).domainHash =
          calculateDomainHash
            [("chainId", EthValue.num chainId), ("verifyingContract", EthValue.str safeAddress)])
  ∧ (∀ v : String, jsStringGE v "1.3.0" = false →
        (calculateSafeMessageHashes safeAddress chainId messageContent v).domainHash =
          calculateDomainHash [("verifyingContract", EthValue.str safeAddress)])
  ∧ (calculateSafeMessageHashes safeAddress chainId messageContent "1.2.0").domainHash ≠
      (calculateSafeMessageHashes safeAddress chainId messageContent "1.3.0").domainHash := by
  refine ⟨?_, ?_, ?_, ?_, ?_⟩
  · have h12 : jsStringGE "1.2.0" "1.3.0" = false := by decide
    simp [calculateSafeMessageHashes, h12]
  · have h13 : jsStringGE "1.3.0" "1.3.0" = true := by decide
    simp [calculateSafeMessageHashes, h13]
  · intro v hv
    simp [calculateSafeMessageHashes, hv]
  · intro v hv
    simp [calculateSafeMessageHashes, hv]
  · intro heq
    simp only [calculateSafeMessageHashes, calculateDomainHash, hashDomain, hashStruct,
      domainTypeFields, domainFieldType, keccak256, encodeTypeStr, encodeTypeFields,
      assocLookup, encodeDataPre, encodeFieldPre, jsStringGE, jsCharListLt] at heq
    simp at heq

/-- C6 witness: the version gate applied at version 1.4.1: the domain
hash is the two-field domain hash. -/
theorem safeMessage_domain_version_gate_witness :
    (calculateSafeMessageHashes "0xSafe" 5 "0xabcd" "1.4.1").domainHash =
      calculateDomainHash
        [("chainId", EthValue.num 5), ("verifyingContract", EthValue.str "0xSafe")] :=
  (safeMessage_domain_version_gate "0xSafe" 5 "0xabcd").2.2.1 "1.4.1" (by decide)

/-- C8: removeTransaction with a hash argument removes nothing: the
filter compares JSON.stringify of the data object (an object literal)
with JSON.stringify of the hash (a string literal), which never agree;
with the hash omitted it clears the whole list.  This contradicts the
source's own comment that the matching transaction is removed. -/
theorem removeTransaction_by_hash_removes_nothing :
    (∀ (txs : List EthSafeTransaction) (h : String),
        removeTransaction txs (some h) = txs)
  ∧ (∀ txs : List EthSafeTransaction, removeTransaction txs none = []) := by
  refine ⟨fun txs h => ?_, fun txs => rfl⟩
  rw [removeTransaction]
  apply List.filter_eq_self.mpr
  intro tx _
  simp [bne_iff_ne, jsonStringifyTxData_ne]

/-- C10: calculateTypedDataHash does not mutate the caller's types
object: it strips EIP712Domain from a spread copy only, so the object
the caller's reference points at is unchanged after the call, and an
EIP712Domain entry present before the call is still present. -/
theorem typedDataHash_preserves_caller_types (heap : TypesHeap) (fresh : Nat)
    (td : TypedDataArg) (tys : TypesMap)
    (hty : typesHeapGet heap td.typesRef = some tys)
    (hfresh : typesHeapGet heap fresh = none) :
    typesHeapGet (calculateTypedDataHash heap fresh td).1 td.typesRef = some tys
  ∧ ((tys.map (fun e => e.1)).contains "EIP712Domain" = true →
      (((typesHeapGet (calculateTypedDataHash heap fresh td).1 td.typesRef).getD
          []).map (fun e => e.1)).contains "EIP712Domain" = true) := by
  have hne : td.typesRef ≠ fresh := by
    intro h; rw [h, hfresh] at hty; exact Option.noConfusion hty
  have hmain : typesHeapGet (calculateTypedDataHash heap fresh td).1 td.typesRef = some tys := by
    simp only [calculateTypedDataHash, typesHeapSet, typesHeapGet]
    rw [if_neg (fun h => hne h.symm), hty]
  refine ⟨hmain, fun hdom => ?_⟩
  rw [hmain]
  exact hdom

/-- C10 witness: a concrete caller types map containing an EIP712Domain
entry still holds it after the call. -/
theorem typedDataHash_preserves_caller_types_witness :
    typesHeapGet
        (calculateTypedDataHash
          [(0, [("EIP712Domain", [("chainId", "uint256")]),
                ("Mail", [("contents", "string")])])]
          1 ⟨[], 0, "Mail", []⟩).1 0 =
      some [("EIP712Domain", [("chainId", "uint256")]),
            ("Mail", [("contents", "string")])] :=
  (typedDataHash_preserves_caller_types
    [(0, [("EIP712Domain", [("chainId", "uint256")]), ("Mail", [("contents", "string")])])]
    1 ⟨[], 0, "Mail", []⟩
    [("EIP712Domain", [("chainId", "uint256")]), ("Mail", [("contents", "string")])]
    (by decide) (by decide)).1

/-- C7 counterexample: getAllTransactions returns the stored array
reference itself, so writing through the returned reference changes the
list the ledger stores for the address: the claim that mutating the
returned sequence does not change internal state fails on this store. -/
theorem getAllTransactions_alias_counterexample :
    (getAllTransactions
        ⟨[(0, [⟨⟨"0xto", "1", "0x", 0, "0", "0", "0", "0xgt", "0xrr", 0⟩, []⟩])],
         [("0xsafe", 0)]⟩ 1 "0xsafe").1 = 0
  ∧ heapGet
      (heapSet
        (getAllTransactions
          ⟨[(0, [⟨⟨"0xto", "1", "0x", 0, "0", "0", "0", "0xgt", "0xrr", 0⟩, []⟩])],
           [("0xsafe", 0)]⟩ 1 "0xsafe").2
        0 []) 0 ≠
      heapGet [(0, [⟨⟨"0xto", "1", "0x", 0, "0", "0", "0", "0xgt", "0xrr", 0⟩, []⟩])] 0 := by
  decide

/-- C7 amended: getAllTransactions returns the stored list itself as a
live reference (not a defensive copy) when the address has one, returns
a fresh empty array when none exists (not an error), and writing through
the returned reference updates the list the ledger stores. -/
theorem getAllTransactions_live_reference (st : TxStore) (fresh : Nat) (addr : String) :
    (∀ r, assocLookup addr st.index = some r →
        getAllTransactions st fresh addr = (r, st.heap))
  ∧ (assocLookup addr st.index = none →
        getAllTransactions st fresh addr = (fresh, (fresh, []) :: st.heap))
  ∧ (∀ r l0 l1, assocLookup addr st.index = some r → heapGet st.heap r = some l0 →
        heapGet
          (heapSet (getAllTransactions st fresh addr).2
            (getAllTransactions st fresh addr).1 l1)
          ((getAllTransactions st fresh addr).1) = some l1) := by
  refine ⟨fun r hr => ?_, fun hn => ?_, fun r l0 l1 hr h0 => ?_⟩
  · simp [getAllTransactions, hr]
  · simp [getAllTransactions, hn]
  · simp only [getAllTransactions, hr]
    exact heapGet_heapSet_of_some st.heap r l0 l1 h0

/-- C7 witness: the live-reference behavior at a concrete store. -/
theorem getAllTransactions_live_reference_witness :
    heapGet
        (heapSet
          (getAllTransactions
            ⟨[(0, [⟨⟨"0xto", "1", "0x", 0, "0", "0", "0", "0xgt", "0xrr", 7⟩, []⟩])],
             [("0xsafe", 0)]⟩ 3 "0xsafe").2
          (getAllTransactions
            ⟨[(0, [⟨⟨"0xto", "1", "0x", 0, "0", "0", "0", "0xgt", "0xrr", 7⟩, []⟩])],
             [("0xsafe", 0)]⟩ 3 "0xsafe").1 [])
        ((getAllTransactions
            ⟨[(0, [⟨⟨"0xto", "1", "0x", 0, "0", "0", "0", "0xgt", "0xrr", 7⟩, []⟩])],
             [("0xsafe", 0)]⟩ 3 "0xsafe").1) = some [] :=
  (getAllTransactions_live_reference
    ⟨[(0, [⟨⟨"0xto", "1", "0x", 0, "0", "0", "0", "0xgt", "0xrr", 7⟩, []⟩])],
     [("0xsafe", 0)]⟩ 3 "0xsafe").2.2 0
    [⟨⟨"0xto", "1", "0x", 0, "0", "0", "0", "0xgt", "0xrr", 7⟩, []⟩] []
    (by decide) (by decide)

/-- C5 counterexample: import failures are silently swallowed, not
reported: an unparseable payload leaves the state unchanged with no
signal, and a payload with one valid and one field-less entry returns
exactly what the payload without the malformed entry returns, so the
caller cannot distinguish a partial failure from full success. -/
theorem importTx_silent_failure_counterexample :
    importTx [⟨⟨"0xto", "1", "0x", 0, "0", "0", "0", "0xgt", "0xrr", 0⟩, []⟩]
        ImportPayload.parseError =
      [⟨⟨"0xto", "1", "0x", 0, "0", "0", "0", "0xgt", "0xrr", 0⟩, []⟩]
  ∧ importTx []
      (ImportPayload.newFormat
        [⟨some ⟨"0xto", "1", "0x", 0, "0", "0", "0", "0xgt", "0xrr", 1⟩, some []⟩,
         ⟨none, none⟩]) =
    importTx []
      (ImportPayload.newFormat
        [⟨some ⟨"0xto", "1", "0x", 0, "0", "0", "0", "0xgt", "0xrr", 1⟩, some []⟩]) := by
  decide

/-- C5 amended: importTx is atomic over the valid entries: when the
payload has no valid transaction (including unparseable JSON) the stored
list is unchanged, and otherwise exactly the full set of valid
transactions is adopted, sorted by nonce; no failure is reported. -/
theorem importTx_valid_set_or_unchanged (txs : List EthSafeTransaction)
    (payload : ImportPayload) :
    (validImported payload = [] → importTx txs payload = txs)
  ∧ (validImported payload ≠ [] →
      importTx txs payload = jsSortByNonce (validImported payload) ∧
        List.Perm (importTx txs payload) (validImported payload)) := by
  cases payload with
  | parseError => exact ⟨fun _ => rfl, fun h => absurd rfl h⟩
  | otherShape => exact ⟨fun _ => rfl, fun h => absurd rfl h⟩
  | newFormat l =>
    constructor
    · intro hv
      simp only [validImported] at hv
      simp [importTx, collectImported_eq_filterMap, hv]
    · intro hv
      simp only [validImported] at hv
      have : importTx txs (ImportPayload.newFormat l) =
          jsSortByNonce
            (l.filterMap (fun e => e.data.map (fun d => rebuildStored d e.signatures))) := by
        simp [importTx, collectImported_eq_filterMap, List.isEmpty_iff, hv]
      refine ⟨this, ?_⟩
      rw [this]
      exact List.perm_insertionSort _ _
  | oldFormat e =>
    cases hd : e.data with
    | none =>
      refine ⟨fun _ => by simp [importTx, hd], fun h => absurd ?_ h⟩
      simp [validImported, hd]
    | some d =>
      constructor
      · intro hv
        simp [validImported, hd] at hv
      · intro _
        have : importTx txs (ImportPayload.oldFormat e) =
            jsSortByNonce (validImported (ImportPayload.oldFormat e)) := by
          simp [importTx, validImported, hd]
        refine ⟨this, ?_⟩
        rw [this]
        exact List.perm_insertionSort _ _

/-- C2: saveTransaction preserves the at-most-one-transaction-per-nonce
invariant: saving over an existing nonce replaces that entry (same
length) while a new nonce appends (length grows by one), and the
resulting list is sorted by ascending numeric nonce. -/
theorem saveTransaction_nonce_invariant (txs : List EthSafeTransaction)
    (tx : EthSafeTransaction) (hu : NonceUnique txs) :
    NonceUnique (saveTransaction txs tx)
  ∧ SortedByNonce (saveTransaction txs tx)
  ∧ ((∃ t ∈ txs, t.data.nonce = tx.data.nonce) →
      (saveTransaction txs tx).length = txs.length)
  ∧ ((∀ t ∈ txs, t.data.nonce ≠ tx.data.nonce) →
      (saveTransaction txs tx).length = txs.length + 1) := by
  have hsorted : SortedByNonce (saveTransaction txs tx) := by
    rw [saveTransaction]
    exact List.sorted_insertionSort nonceLeProp _
  cases hfind : jsFindIndexNonce tx.data.nonce txs with
  | some i =>
    have hrep : saveTransaction txs tx = jsSortByNonce (txs.set i tx) := by
      simp [saveTransaction, hfind]
    refine ⟨?_, hsorted, ?_, ?_⟩
    · rw [NonceUnique, hrep]
      rw [(nonceList_jsSortByNonce_perm (txs.set i tx)).nodup_iff]
      rw [nonceList_set_of_find tx.data.nonce txs i tx hfind rfl]
      exact hu
    · intro _
      rw [hrep, jsSortByNonce, (List.perm_insertionSort nonceLeProp _).length_eq]
      exact List.length_set txs i tx ▸ rfl
    · intro hall
      obtain ⟨t, ht, hn⟩ := jsFindIndexNonce_some_mem tx.data.nonce txs i hfind
      exact absurd hn (hall t ht)
  | none =>
    have happ : saveTransaction txs tx = jsSortByNonce (txs ++ [tx]) := by
      simp [saveTransaction, hfind]
    refine ⟨?_, hsorted, ?_, ?_⟩
    · rw [NonceUnique, happ]
      rw [(nonceList_jsSortByNonce_perm (txs ++ [tx])).nodup_iff]
      have hne := jsFindIndexNonce_none tx.data.nonce txs hfind
      simp only [nonceList, List.map_append, List.map_cons, List.map_nil]
      rw [List.nodup_append]
      refine ⟨hu, List.nodup_singleton _, ?_⟩
      intro x hx hy
      simp only [List.mem_singleton] at hy
      obtain ⟨t, ht, he⟩ := List.mem_map.mp hx
      exact hne t ht (he.trans hy)
    · intro hex
      obtain ⟨t, ht, hn⟩ := hex
      exact absurd hn (jsFindIndexNonce_none tx.data.nonce txs hfind t ht)
    · intro _
      rw [happ, jsSortByNonce, (List.perm_insertionSort nonceLeProp _).length_eq]
      simp

/-- C2 witness: inserting nonce 9 into a store holding nonces 2 and 10
keeps nonces unique and sorts 9 between 2 and 10 (numeric order, not
string order), growing the list by one. -/
theorem saveTransaction_nonce_invariant_witness :
    NonceUnique
        (saveTransaction
          [⟨⟨"0xa", "1", "0x", 0, "0", "0", "0", "0xg", "0xr", 2⟩, []⟩,
           ⟨⟨"0xb", "1", "0x", 0, "0", "0", "0", "0xg", "0xr", 10⟩, []⟩]
          ⟨⟨"0xc", "1", "0x", 0, "0", "0", "0", "0xg", "0xr", 9⟩, []⟩)
  ∧ SortedByNonce
        (saveTransaction
          [⟨⟨"0xa", "1", "0x", 0, "0", "0", "0", "0xg", "0xr", 2⟩, []⟩,
           ⟨⟨"0xb", "1", "0x", 0, "0", "0", "0", "0xg", "0xr", 10⟩, []⟩]
          ⟨⟨"0xc", "1", "0x", 0, "0", "0", "0", "0xg", "0xr", 9⟩, []⟩)
  ∧ (saveTransaction
        [⟨⟨"0xa", "1", "0x", 0, "0", "0", "0", "0xg", "0xr", 2⟩, []⟩,
         ⟨⟨"0xb", "1", "0x", 0, "0", "0", "0", "0xg", "0xr", 10⟩, []⟩]
        ⟨⟨"0xc", "1", "0x", 0, "0", "0", "0", "0xg", "0xr", 9⟩, []⟩).length = 3 :=
  have h := saveTransaction_nonce_invariant
    [⟨⟨"0xa", "1", "0x", 0, "0", "0", "0", "0xg", "0xr", 2⟩, []⟩,
     ⟨⟨"0xb", "1", "0x", 0, "0", "0", "0", "0xg", "0xr", 10⟩, []⟩]
    ⟨⟨"0xc", "1", "0x", 0, "0", "0", "0", "0xg", "0xr", 9⟩, []⟩ (by decide)
  ⟨h.1, h.2.1, h.2.2.2 (by decide)⟩

/-- C3: within one transaction signature map, adding a second signature
whose signer matches an existing one up to letter case leaves exactly
one entry under that signer key, holding the second signature (the later
call wins), and the map does not grow. -/
theorem addSignature_dedup_case_insensitive (tx : EthSafeTransaction)
    (s1 s2 : EthSafeSignature) (hwf : SigMapWF tx)
    (hsame : jsToLowerCase s1.signer = jsToLowerCase s2.signer) :
    ((addSignature (addSignature tx s1) s2).signatures.filter
        (fun kv => kv.1 == jsToLowerCase s2.signer)).map (fun kv => kv.2) = [s2]
  ∧ (addSignature (addSignature tx s1) s2).signatures.length =
      (addSignature tx s1).signatures.length := by
  have hnd1 : ((addSignature tx s1).signatures.map (fun kv => kv.1)).Nodup :=
    keys_nodup_mapSet (jsToLowerCase s1.signer) s1 tx.signatures hwf.2
  constructor
  · show ((mapSet (jsToLowerCase s2.signer) s2
        (addSignature tx s1).signatures).filter
        (fun kv => kv.1 == jsToLowerCase s2.signer)).map (fun kv => kv.2) = [s2]
    rw [filter_mapSet_eq_single (jsToLowerCase s2.signer) s2
      (addSignature tx s1).signatures hnd1]
    rfl
  · show (mapSet (jsToLowerCase s2.signer) s2
        (addSignature tx s1).signatures).length =
      (addSignature tx s1).signatures.length
    apply length_mapSet_of_mem
    rw [← hsame]
    exact mem_keys_mapSet (jsToLowerCase s1.signer) s1 tx.signatures

/-- C3 witness: signatures from 0xAB then 0xaB collapse to one stored
entry carrying the second signature. -/
theorem addSignature_dedup_case_insensitive_witness :
    ((addSignature (addSignature ⟨⟨"0xa", "1", "0x", 0, "0", "0", "0", "0xg", "0xr", 0⟩, []⟩
          ⟨"0xAB", "0xsig1", false⟩) ⟨"0xaB", "0xsig2", false⟩).signatures.filter
        (fun kv => kv.1 == jsToLowerCase "0xaB")).map (fun kv => kv.2) =
      [⟨"0xaB", "0xsig2", false⟩]
  ∧ (addSignature (addSignature ⟨⟨"0xa", "1", "0x", 0, "0", "0", "0", "0xg", "0xr", 0⟩, []⟩
        ⟨"0xAB", "0xsig1", false⟩) ⟨"0xaB", "0xsig2", false⟩).signatures.length =
      (addSignature ⟨⟨"0xa", "1", "0x", 0, "0", "0", "0", "0xg", "0xr", 0⟩, []⟩
        ⟨"0xAB", "0xsig1", false⟩).signatures.length :=
  addSignature_dedup_case_insensitive
    ⟨⟨"0xa", "1", "0x", 0, "0", "0", "0", "0xg", "0xr", 0⟩, []⟩
    ⟨"0xAB", "0xsig1", false⟩ ⟨"0xaB", "0xsig2", false⟩
    (by constructor <;> decide) (by decide)

/-- Rebuilding a well-formed signature map from its values restores it:
folding addSignature over the exported triples appended to a prefix
extends the prefix exactly. -/
theorem foldl_addSignature_rebuild (d : SafeTxData)
    (pre sigs : List (String × EthSafeSignature))
    (hk : ∀ kv ∈ sigs, kv.1 = jsToLowerCase kv.2.signer)
    (hnd : ((pre ++ sigs).map (fun kv => kv.1)).Nodup) :
    List.foldl (fun tx s => addSignature tx s) ⟨d, pre⟩ (sigs.map (fun kv => kv.2)) =
      ⟨d, pre ++ sigs⟩ := by
  induction sigs generalizing pre with
  | nil => simp
  | cons kv rest ih =>
    obtain ⟨k, s⟩ := kv
    have hks : k = jsToLowerCase s.signer := hk (k, s) (List.mem_cons_self _ _)
    have hknotpre : ∀ kv2 ∈ pre, kv2.1 ≠ k := by
      intro kv2 hm he
      have : (pre ++ (k, s) :: rest).map (fun kv => kv.1) =
          pre.map (fun kv => kv.1) ++ k :: rest.map (fun kv => kv.1) := by simp
      rw [this] at hnd
      rcases List.nodup_append.mp hnd with ⟨_, _, hdisj⟩
      exact hdisj (List.mem_map.mpr ⟨kv2, hm, rfl⟩) (by simp [he])
    have hstep : addSignature ⟨d, pre⟩ s = ⟨d, pre ++ [(k, s)]⟩ := by
      show (⟨d, mapSet (jsToLowerCase s.signer) s pre⟩ : EthSafeTransaction) = _
      rw [← hks, mapSet_of_not_mem k s pre hknotpre]
    simp only [List.map_cons, List.foldl_cons, hstep]
    have hre : (pre ++ [(k, s)]) ++ rest = pre ++ (k, s) :: rest := by simp
    rw [ih (pre ++ [(k, s)])
      (fun kv2 hm => hk kv2 (List.mem_cons_of_mem _ hm)) (by rw [hre]; exact hnd), hre]

/-- A well-formed transaction survives the export and rebuild cycle. -/
theorem rebuildStored_roundtrip (tx : EthSafeTransaction) (hwf : SigMapWF tx) :
    rebuildStored tx.data (some (tx.signatures.map (fun kv => kv.2))) = tx := by
  rw [rebuildStored, newEthSafeTransaction]
  have := foldl_addSignature_rebuild tx.data [] tx.signatures
    (fun kv hm => hwf.1 kv hm) (by simpa using hwf.2)
  simpa using this

/-- Importing the exported entries rebuilds the exact list. -/
theorem collectImported_export (txs : List EthSafeTransaction) (hwf : LedgerWF txs) :
    collectImported (txs.map (fun tx =>
      { data := some tx.data
        signatures := some (tx.signatures.map (fun kv => kv.2)) })) = txs := by
  induction txs with
  | nil => rfl
  | cons tx rest ih =>
    simp only [List.map_cons, collectImported]
    rw [rebuildStored_roundtrip tx (hwf tx (List.mem_cons_self _ _)),
      ih (fun t ht => hwf t (List.mem_cons_of_mem _ ht))]

/-- C4: importing the export of a non-empty well-formed ledger state
reproduces an equivalent state: a permutation of the original
transactions with identical data, nonces and signature sets, and the
exact original list whenever it was sorted by nonce (as every list the
provider stores is). -/
theorem export_import_round_trip (prev txs : List EthSafeTransaction)
    (hne : txs ≠ []) (hwf : LedgerWF txs) :
    List.Perm (importTx prev (parseExport (exportTx txs))) txs
  ∧ (SortedByNonce txs → importTx prev (parseExport (exportTx txs)) = txs) := by
  have hexp : exportTx txs = some (txs.map (fun tx =>
      { data := some tx.data
        signatures := some (tx.signatures.map (fun kv => kv.2)) })) := by
    rw [exportTx, if_neg (by simpa [List.isEmpty_iff] using hne)]
  have hred : importTx prev (parseExport (exportTx txs)) = jsSortByNonce txs := by
    rw [hexp]
    show importTx prev (ImportPayload.newFormat _) = _
    rw [importTx]
    simp only [collectImported_export txs hwf]
    rw [if_neg (by simpa [List.isEmpty_iff] using hne)]
  refine ⟨?_, fun hs => ?_⟩
  · rw [hred]
    exact List.perm_insertionSort nonceLeProp txs
  · rw [hred, jsSortByNonce]
    exact List.Sorted.insertionSort_eq hs

/-- C4 witness: a two-transaction state with case-mixed signers survives
the export and import cycle exactly. -/
theorem export_import_round_trip_witness :
    importTx []
        (parseExport
          (exportTx
            [⟨⟨"0xa", "1", "0x", 0, "0", "0", "0", "0xg", "0xr", 1⟩,
              [("0xab", ⟨"0xAB", "0xsig1", false⟩)]⟩,
             ⟨⟨"0xb", "2", "0x", 0, "0", "0", "0", "0xg", "0xr", 2⟩,
              [("0xcd", ⟨"0xCD", "0xsig2", true⟩)]⟩])) =
      [⟨⟨"0xa", "1", "0x", 0, "0", "0", "0", "0xg", "0xr", 1⟩,
        [("0xab", ⟨"0xAB", "0xsig1", false⟩)]⟩,
       ⟨⟨"0xb", "2", "0x", 0, "0", "0", "0", "0xg", "0xr", 2⟩,
        [("0xcd", ⟨"0xCD", "0xsig2", true⟩)]⟩] :=
  (export_import_round_trip []
    [⟨⟨"0xa", "1", "0x", 0, "0", "0", "0", "0xg", "0xr", 1⟩,
      [("0xab", ⟨"0xAB", "0xsig1", false⟩)]⟩,
     ⟨⟨"0xb", "2", "0x", 0, "0", "0", "0", "0xg", "0xr", 2⟩,
      [("0xcd", ⟨"0xCD", "0xsig2", true⟩)]⟩]
    (by decide) (by decide)).2 (by decide)

/-- C5 witness: a payload with one valid entry is adopted as the sorted
valid set. -/
theorem importTx_valid_set_or_unchanged_witness :
    importTx []
        (ImportPayload.newFormat
          [⟨some ⟨"0xto", "1", "0x", 0, "0", "0", "0", "0xgt", "0xrr", 1⟩, some []⟩]) =
      jsSortByNonce (validImported
          (ImportPayload.newFormat
            [⟨some ⟨"0xto", "1", "0x", 0, "0", "0", "0", "0xgt", "0xrr", 1⟩, some []⟩])) :=
  ((importTx_valid_set_or_unchanged []
      (ImportPayload.newFormat
        [⟨some ⟨"0xto", "1", "0x", 0, "0", "0", "0", "0xgt", "0xrr", 1⟩, some []⟩])).2
    (by decide)).1

/-- Converting a valid scalar value to a character and back is the
identity. -/
theorem charOfNat_toNat (n : Nat) (h : n.isValidChar) : (Char.ofNat n).toNat = n := by
  simp only [Char.ofNat, h, dif_pos, Char.toNat, Char.ofNatAux]
  rfl

/-- Bounds carried by an admissible second byte of a three-byte
sequence. -/
theorem utf8SecondOk3_bounds (b0 b1 : Nat) (h : utf8SecondOk3 b0 b1 = true) :
    0x80 ≤ b1 ∧ b1 ≤ 0xBF ∧ (b0 = 0xE0 → 0xA0 ≤ b1) ∧ (b0 = 0xED → b1 ≤ 0x9F) := by
  rw [utf8SecondOk3] at h
  split_ifs at h with he hd
  · simp only [Bool.and_eq_true, decide_eq_true_eq] at h
    exact ⟨by omega, h.2, fun _ => h.1, fun hx => by omega⟩
  · simp only [Bool.and_eq_true, decide_eq_true_eq] at h
    exact ⟨h.1, by omega, fun hx => absurd hx he, fun _ => h.2⟩
  · simp only [isUtf8Cont, Bool.and_eq_true, decide_eq_true_eq] at h
    exact ⟨h.1, h.2, fun hx => absurd hx he, fun hx => absurd hx hd⟩

/-- Bounds carried by an admissible second byte of a four-byte
sequence. -/
theorem utf8SecondOk4_bounds (b0 b1 : Nat) (h : utf8SecondOk4 b0 b1 = true) :
    0x80 ≤ b1 ∧ b1 ≤ 0xBF ∧ (b0 = 0xF0 → 0x90 ≤ b1) ∧ (b0 = 0xF4 → b1 ≤ 0x8F) := by
  rw [utf8SecondOk4] at h
  split_ifs at h with he hd
  · simp only [Bool.and_eq_true, decide_eq_true_eq] at h
    exact ⟨by omega, h.2, fun _ => h.1, fun hx => by omega⟩
  · simp only [Bool.and_eq_true, decide_eq_true_eq] at h
    exact ⟨h.1, by omega, fun hx => absurd hx he, fun _ => h.2⟩
  · simp only [isUtf8Cont, Bool.and_eq_true, decide_eq_true_eq] at h
    exact ⟨h.1, h.2, fun hx => absurd hx he, fun hx => absurd hx hd⟩

/-- A successfully parsed scalar is a valid character whose UTF-8
encoding restores exactly the consumed bytes. -/
theorem utf8DecodeOne_spec (b0 : Nat) (t : List Nat) (v : Nat) (rest : List Nat)
    (h : utf8DecodeOne b0 t = some (v, rest)) :
    v.isValidChar ∧ utf8EncodeScalar v ++ rest = b0 :: t := by
  rw [utf8DecodeOne.eq_def] at h
  by_cases h0 : b0 < 0x80
  · rw [if_pos h0] at h
    injection h with h
    injection h with hv hr
    subst hv; subst hr
    refine ⟨Or.inl (by omega), ?_⟩
    rw [utf8EncodeScalar, if_pos h0]
    rfl
  · rw [if_neg h0] at h
    by_cases h1 : b0 < 0xC2
    · rw [if_pos h1] at h; cases h
    · rw [if_neg h1] at h
      by_cases h2 : b0 ≤ 0xDF
      · rw [if_pos h2] at h
        rcases t with _ | ⟨b1, t1⟩
        · cases h
        · simp only [] at h
          by_cases hc : isUtf8Cont b1
          · rw [if_pos hc] at h
            injection h with h
            injection h with hv hr
            subst hv; subst hr
            simp only [isUtf8Cont, Bool.and_eq_true, decide_eq_true_eq] at hc
            refine ⟨Or.inl (by omega), ?_⟩
            rw [utf8EncodeScalar, if_neg (by omega), if_pos (by omega)]
            have e1 : 0xC0 + ((b0 - 0xC0) * 64 + (b1 - 0x80)) / 64 = b0 := by omega
            have e2 : 0x80 + ((b0 - 0xC0) * 64 + (b1 - 0x80)) % 64 = b1 := by omega
            rw [e1, e2]
            rfl
          · rw [if_neg hc] at h; cases h
      · rw [if_neg h2] at h
        by_cases h3 : b0 ≤ 0xEF
        · rw [if_pos h3] at h
          rcases t with _ | ⟨b1, _ | ⟨b2, t2⟩⟩
          · cases h
          · cases h
          · simp only [] at h
            by_cases hc : utf8SecondOk3 b0 b1 && isUtf8Cont b2
            · rw [if_pos hc] at h
              injection h with h
              injection h with hv hr
              subst hv; subst hr
              rw [Bool.and_eq_true] at hc
              obtain ⟨hb1a, hb1b, hb1e0, hb1ed⟩ := utf8SecondOk3_bounds b0 b1 hc.1
              have hb2 : 0x80 ≤ b2 ∧ b2 ≤ 0xBF := by
                have := hc.2
                simp only [isUtf8Cont, Bool.and_eq_true, decide_eq_true_eq] at this
                exact this
              have hge : 0x800 ≤ (b0 - 0xE0) * 4096 + (b1 - 0x80) * 64 + (b2 - 0x80) := by
                by_cases he0 : b0 = 0xE0
                · have := hb1e0 he0; omega
                · omega
              refine ⟨?_, ?_⟩
              · by_cases hed : b0 = 0xED
                · exact Or.inl (by have := hb1ed hed; omega)
                · by_cases hle : b0 ≤ 0xEC
                  · exact Or.inl (by omega)
                  · exact Or.inr ⟨by omega, by omega⟩
              · rw [utf8EncodeScalar, if_neg (by omega), if_neg (by omega),
                  if_pos (by omega)]
                have e1 : 0xE0 + ((b0 - 0xE0) * 4096 + (b1 - 0x80) * 64 + (b2 - 0x80)) /
                    4096 = b0 := by omega
                have e2 : 0x80 + ((b0 - 0xE0) * 4096 + (b1 - 0x80) * 64 + (b2 - 0x80)) /
                    64 % 64 = b1 := by omega
                have e3 : 0x80 + ((b0 - 0xE0) * 4096 + (b1 - 0x80) * 64 + (b2 - 0x80)) %
                    64 = b2 := by omega
                rw [e1, e2, e3]
                rfl
            · rw [if_neg hc] at h; cases h
        · rw [if_neg h3] at h
          by_cases h4 : b0 ≤ 0xF4
          · rw [if_pos h4] at h
            rcases t with _ | ⟨b1, _ | ⟨b2, _ | ⟨b3, t3⟩⟩⟩
            · cases h
            · cases h
            · cases h
            · simp only [] at h
              by_cases hc : utf8SecondOk4 b0 b1 && isUtf8Cont b2 && isUtf8Cont b3
              · rw [if_pos hc] at h
                injection h with h
                injection h with hv hr
                subst hv; subst hr
                rw [Bool.and_eq_true, Bool.and_eq_true] at hc
                obtain ⟨⟨hok4, hc2⟩, hc3⟩ := hc
                obtain ⟨hb1a, hb1b, hb1f0, hb1f4⟩ := utf8SecondOk4_bounds b0 b1 hok4
                have hb2 : 0x80 ≤ b2 ∧ b2 ≤ 0xBF := by
                  simp only [isUtf8Cont, Bool.and_eq_true, decide_eq_true_eq] at hc2
                  exact hc2
                have hb3 : 0x80 ≤ b3 ∧ b3 ≤ 0xBF := by
                  simp only [isUtf8Cont, Bool.and_eq_true, decide_eq_true_eq] at hc3
                  exact hc3
                have hge : 0x10000 ≤ (b0 - 0xF0) * 262144 + (b1 - 0x80) * 4096 +
                    (b2 - 0x80) * 64 + (b3 - 0x80) := by
                  by_cases hf0 : b0 = 0xF0
                  · have := hb1f0 hf0; omega
                  · omega
                have hlt : (b0 - 0xF0) * 262144 + (b1 - 0x80) * 4096 + (b2 - 0x80) * 64 +
                    (b3 - 0x80) < 0x110000 := by
                  by_cases hf4 : b0 = 0xF4
                  · have := hb1f4 hf4; omega
                  · omega
                refine ⟨Or.inr ⟨by omega, hlt⟩, ?_⟩
                rw [utf8EncodeScalar, if_neg (by omega), if_neg (by omega),
                  if_neg (by omega)]
                have e1 : 0xF0 + ((b0 - 0xF0) * 262144 + (b1 - 0x80) * 4096 +
                    (b2 - 0x80) * 64 + (b3 - 0x80)) / 262144 = b0 := by omega
                have e2 : 0x80 + ((b0 - 0xF0) * 262144 + (b1 - 0x80) * 4096 +
                    (b2 - 0x80) * 64 + (b3 - 0x80)) / 4096 % 64 = b1 := by omega
                have e3 : 0x80 + ((b0 - 0xF0) * 262144 + (b1 - 0x80) * 4096 +
                    (b2 - 0x80) * 64 + (b3 - 0x80)) / 64 % 64 = b2 := by omega
                have e4 : 0x80 + ((b0 - 0xF0) * 262144 + (b1 - 0x80) * 4096 +
                    (b2 - 0x80) * 64 + (b3 - 0x80)) % 64 = b3 := by omega
                rw [e1, e2, e3, e4]
                rfl
              · rw [if_neg hc] at h; cases h
          · rw [if_neg h4] at h; cases h

/-- Re-encoding a successfully decoded byte list restores it. -/
theorem utf8DecodeGo_encode (fuel : Nat) :
    ∀ (bs : List Nat) (cs : List Char),
      utf8DecodeGo fuel bs = some cs → utf8EncodeList cs = bs := by
  induction fuel with
  | zero =>
    intro bs cs h
    cases bs with
    | nil => rw [utf8DecodeGo] at h; cases h; rfl
    | cons b0 t => cases h
  | succ fuel ih =>
    intro bs cs h
    cases bs with
    | nil => rw [utf8DecodeGo] at h; cases h; rfl
    | cons b0 t =>
      rw [utf8DecodeGo] at h
      cases hone : utf8DecodeOne b0 t with
      | none => rw [hone] at h; cases h
      | some pr =>
        obtain ⟨v, rest⟩ := pr
        rw [hone, Option.map_eq_some'] at h
        obtain ⟨cs1, hrec, hcs⟩ := h
        subst hcs
        obtain ⟨hv, henc⟩ := utf8DecodeOne_spec b0 t v rest hone
        rw [utf8EncodeList, utf8EncodeChar, charOfNat_toNat v hv, ih rest cs1 hrec]
        exact henc

/-- Strict UTF-8 decoding inverts UTF-8 encoding: re-encoding the
decoded characters restores the original bytes. -/
theorem utf8Decode_encode (bs : List Nat) (cs : List Char)
    (h : utf8Decode bs = some cs) : utf8EncodeList cs = bs :=
  utf8DecodeGo_encode bs.length bs cs h

/-- C9 counterexample: at the input 0xff, hex decoding succeeds (the
byte 255), yet the code does not hash that byte form: the bytes are not
valid UTF-8, so the code falls back to hashing the literal string 0xff,
while the claim says the fallback happens only when hex decoding itself
fails. -/
theorem personalSignHash_hex_counterexample :
    hexToBytes "0xff" = some [255]
  ∧ calculatePersonalSignHash "0xff" ≠ specPersonalSignHash "0xff" := by decide

/-- C9 amended: calculatePersonalSignHash always returns a digest; a
0x input is hex-decoded and the bytes interpreted as UTF-8 text, and the
EIP-191 transform is applied to exactly those bytes when they form valid
UTF-8; when hex decoding fails or the bytes are not valid UTF-8 the
literal input string is hashed instead. -/
theorem personalSignHash_decode_behavior (m : String) :
    (∀ bs : List Nat, jsStartsWith0x m = true → hexToBytes m = some bs →
        (utf8Decode bs).isSome = true →
        calculatePersonalSignHash m = keccak256 (Pre.bytes (eip191Framing bs) Pre.emp))
  ∧ (jsStartsWith0x m = true → toUtf8String m = none →
        calculatePersonalSignHash m = hashMessage m)
  ∧ (jsStartsWith0x m = false → calculatePersonalSignHash m = hashMessage m) := by
  refine ⟨fun bs hs hhex hdec => ?_, fun hs htu => ?_, fun hs => ?_⟩
  · obtain ⟨cs, hcs⟩ := Option.isSome_iff_exists.mp hdec
    have hstr : utf8Str (String.mk cs) = bs := by
      rw [utf8Str]
      exact utf8Decode_encode bs cs hcs
    have htu : toUtf8String m = some (String.mk cs) := by
      rw [toUtf8String, hhex]
      simp only []
      rw [hcs]
    simp only [calculatePersonalSignHash, hs, if_true, htu]
    rw [hashMessage, hstr]
  · simp only [calculatePersonalSignHash, hs, if_true, htu]
  · simp only [calculatePersonalSignHash, hs, Bool.false_eq_true, if_false]

/-- C9 witness: the hex input 0x61 is hashed as the single byte 97. -/
theorem personalSignHash_decode_behavior_witness :
    calculatePersonalSignHash "0x61" =
      keccak256 (Pre.bytes (eip191Framing [97]) Pre.emp) :=
  (personalSignHash_decode_behavior "0x61").1 [97] (by decide) (by decide) (by decide)

end LocalSafe
